import Mathlib

/-!
Verification of the `parse` package of the rain repository: the tag-aware
YAML reader (`Read`, `ReadFile`, `ReadString`), the custom-tag normalizer
(`UnmarshalYAMLTag`), the attribute-path canonicalizer (`transformGetAtt`)
and the structural-equivalence checker (`VerifyOutput`).

Embedding conventions:
* Decoded YAML/JSON values (`interface{}` after `json.Unmarshal`) become the
  inductive type `Value`: null, booleans, numbers, strings, ordered
  sequences, and string-keyed mappings.  A Go `map[string]interface{}` is
  represented as an association list `List (String × Value)`; Go maps have
  unique keys, which the embedding captures with the decidable
  well-formedness check `wfV` where a proof needs it.  Association-list
  order is representation noise (Go maps are unordered), so all map
  comparisons below are lookup-based, never order-based.
* The external YAML-to-JSON converter (`yamlwrapper.YAMLToJSON` composed
  with JSON parsing) is an external collaborator of the package; it is a
  parameter `conv : String → Except String Value` of the entry points.
  The typed step `json.Unmarshal(parsed, &output)` for
  `output : map[string]interface{}` is modelled by `unmarshalTopMap`:
  a JSON `null` leaves the Go map `nil` (modelled `none`), an object fills
  it, anything else is a type error.
* `ioutil.ReadAll` is modelled by passing the reader's outcome
  `Except String String`; `ioutil.ReadFile` over the OS is modelled by
  `osFS`, a file table plus the usual `open <name>: no such file or
  directory` failure.
* `cmp.Diff(source, validate, trans)` is modelled in two parts that mirror
  one walk of go-cmp: the reported diff is `diffV` applied to the two
  documents with the `GetAtt` transformer already applied recursively
  (`normGetAtt`; go-cmp applies a transformer at every visited node of the
  matching type, so the eager normalization computes the same diff), and
  the heap effect of the walk is `postV` (the transformer closure in
  `VerifyOutput` assigns `in[k] = transformGetAtt(v)` into the very map it
  receives; Go maps are reference values, so this writes into the caller's
  document).  `renderDiff` models the human-readable rendering; only its
  emptiness behaviour matters to the code, which branches on `diff != ""`.
-/

namespace Parse

/-- A decoded YAML/JSON value: the shape of Go's `interface{}` after
`json.Unmarshal` (null, bool, number, string, `[]interface{}`,
`map[string]interface{}`). -/
inductive Value where
  | null : Value
  | bool : Bool → Value
  | num : Int → Value
  | str : String → Value
  | seq : List Value → Value
  | map : List (String × Value) → Value

/-- One step of a path into a nested value: a mapping key or a sequence
index. -/
inductive Step where
  | key : String → Step
  | idx : Nat → Step
  deriving DecidableEq

/-- A path into a nested value, used to report where two documents
disagree. -/
abbrev Path := List Step

mutual
/-- Structural boolean equality on values (used only to obtain decidable
equality for the type `Value`). -/
def beqV : Value → Value → Bool
  | .null, .null => true
  | .bool a, .bool b => a == b
  | .num a, .num b => a == b
  | .str a, .str b => a == b
  | .seq xs, .seq ys => beqL xs ys
  | .map ex, .map ey => beqE ex ey
  | _, _ => false

/-- Structural boolean equality on lists of values. -/
def beqL : List Value → List Value → Bool
  | [], [] => true
  | x :: xs, y :: ys => beqV x y && beqL xs ys
  | _, _ => false

/-- Structural boolean equality on association lists. -/
def beqE : List (String × Value) → List (String × Value) → Bool
  | [], [] => true
  | (k, v) :: ex, (k', v') :: ey => k == k' && beqV v v' && beqE ex ey
  | _, _ => false
end

theorem beqV_iff : ∀ x y, beqV x y = true ↔ x = y := by
  apply Value.rec
    (motive_1 := fun x => ∀ y, beqV x y = true ↔ x = y)
    (motive_2 := fun xs => ∀ ys, beqL xs ys = true ↔ xs = ys)
    (motive_3 := fun ex => ∀ ey, beqE ex ey = true ↔ ex = ey)
    (motive_4 := fun kv => ∀ v, beqV kv.2 v = true ↔ kv.2 = v)
  · intro y; cases y <;> simp [beqV]
  · intro a y; cases y <;> simp [beqV]
  · intro a y; cases y <;> simp [beqV]
  · intro a y; cases y <;> simp [beqV]
  · intro xs ih y; cases y <;> simp [beqV, ih]
  · intro ex ih y; cases y <;> simp [beqV, ih]
  · intro ys; cases ys <;> simp [beqL]
  · intro x xs ihx ihxs ys; cases ys <;> simp [beqL, ihx, ihxs]
  · intro ey; cases ey <;> simp [beqE]
  · intro kv ex ihkv ihex ey
    cases ey with
    | nil => cases kv; simp [beqE]
    | cons kv' ey =>
      cases kv; cases kv'
      simp [beqE, ihkv, ihex, Prod.ext_iff, and_assoc]
  · intro k v ih; exact ih

instance : DecidableEq Value := fun x y => decidable_of_iff _ (beqV_iff x y)

/-! ## The attribute-path canonicalizer (`transformGetAtt`, part_000 lines 47-57) -/

/-- Split a character list at the first occurrence of `sep`; `none` when
`sep` does not occur.  This is the semantics of Go's
`strings.SplitN(s, sep, 2)` restricted to a one-character separator. -/
def splitCharsAtFirst (sep : Char) : List Char → Option (List Char × List Char)
  | [] => none
  | c :: cs =>
    if c = sep then some ([], cs)
    else
      match splitCharsAtFirst sep cs with
      | none => none
      | some (a, b) => some (c :: a, b)

/-- Go's `strings.SplitN(s, ".", 2)`: one part when `s` has no `"."`,
otherwise the part before the first `"."` and everything after it. -/
def goSplitNDot2 (s : String) : List String :=
  match splitCharsAtFirst '.' s.data with
  | none => [s]
  | some (a, b) => [String.mk a, String.mk b]

/-- Model of `transformGetAtt` (part_000 lines 47-57): a string is replaced by the
two-slot sequence `make([]interface{}, 2)` filled from
`strings.SplitN(s, ".", 2)` (unfilled slots stay `nil`); any non-string
value is returned unchanged. -/
def transformGetAtt : Value → Value
  | .str s =>
      .seq (((goSplitNDot2 s).map Value.str) ++
        List.replicate (2 - (goSplitNDot2 s).length) Value.null)
  | v => v

/-! ## The tag normalizer (`UnmarshalYAMLTag`, part_000 lines 16-45, 59-76) -/

/-- The 17 registered custom tag names (part_000 lines 16-34). -/
def tags : List String :=
  ["And", "Base64", "Cidr", "Equals", "FindInMap", "GetAZs", "GetAtt",
   "If", "ImportValue", "Join", "Not", "Or", "Ref", "Select", "Split",
   "Sub", "Transform"]

/-- Model of `UnmarshalYAMLTag` (part_000 lines 59-76): prepend `"Fn::"` unless the
tag is `"Ref"` or `"Condition"`, canonicalize the `GetAtt` payload, and
wrap the result as a single-entry mapping. -/
def UnmarshalYAMLTag (tag : String) (value : Value) : Value :=
  let pfx := if tag = "Ref" || tag = "Condition" then "" else "Fn::"
  let tag' := pfx ++ tag
  let value' := if tag' = "Fn::GetAtt" then transformGetAtt value else value
  .map [(tag', value')]

/-! ## Association-list primitives for the Go map representation -/

/-- Go map lookup `m[k]` on the association-list representation. -/
def lookupE (k : String) : List (String × Value) → Option Value
  | [] => none
  | (k', v) :: ex => if k = k' then some v else lookupE k ex

/-- The keys of a Go map in representation order. -/
def keysE : List (String × Value) → List String
  | [] => []
  | (k, _) :: ex => k :: keysE ex

mutual
/-- Decidable well-formedness of the association-list representation of a
decoded document: every mapping in the tree has pairwise-distinct keys
(always true of a real Go map). -/
def wfV : Value → Bool
  | .seq xs => wfL xs
  | .map ex => wfE ex
  | _ => true

/-- Conjunction of `wfV` over the elements of a sequence. -/
def wfL : List Value → Bool
  | [] => true
  | x :: xs => wfV x && wfL xs

/-- Keys pairwise distinct, values well-formed. -/
def wfE : List (String × Value) → Bool
  | [] => true
  | (k, v) :: ex => (lookupE k ex).isNone && wfV v && wfE ex
end

/-! ## The GetAtt rewrite of `VerifyOutput`, applied recursively

The `cmp.Transformer` in `VerifyOutput` (part_000 lines 119-127) replaces
`in[k]` by `transformGetAtt(v)` for every key `k = "Fn::GetAtt"` of a
mapping, and go-cmp invokes it at every `map[string]interface{}` node it
walks, at any depth.  `normGetAtt` is that rewrite applied recursively to
a whole document.  A `GetAtt` value that was a string becomes a sequence
of strings and nulls, which contains no further mappings, so no further
rewriting happens below it (`normGetAtt_transformGetAtt_str` below); for a
non-string `GetAtt` value `transformGetAtt` is the identity and the walk
continues into it. -/

mutual
/-- The GetAtt rewrite applied recursively to a whole value. -/
def normGetAtt : Value → Value
  | .seq xs => .seq (normList xs)
  | .map ex => .map (normEntries ex)
  | v => v

/-- Map of `normGetAtt` over the elements of a sequence. -/
def normList : List Value → List Value
  | [] => []
  | x :: xs => normGetAtt x :: normList xs

/-- One mapping level of the rewrite: a string under `"Fn::GetAtt"` is
canonicalized (its replacement contains no mappings, so recursion below it
is vacuous); every other value is rewritten recursively. -/
def normEntries : List (String × Value) → List (String × Value)
  | [] => []
  | (k, Value.str s) :: ex =>
      (k, if k = "Fn::GetAtt" then transformGetAtt (Value.str s)
          else Value.str s) :: normEntries ex
  | (k, v) :: ex => (k, normGetAtt v) :: normEntries ex
end

/-! ## The structural diff of `cmp.Diff`

`diffV` computes the set of paths at which two (already rewritten)
documents disagree, with go-cmp's comparison semantics: mapping keys are
compared as sets with lookup-based values, sequences index by index,
scalars by value; where the two sides have different shapes the walk
reports that path and does not descend further. -/

/-- Disagreement paths for the tail of a sequence present on one side
only: one path per extra element, at its index. -/
def diffExtra (i : Nat) : List Value → List Path
  | [] => []
  | _ :: xs => [Step.idx i] :: diffExtra (i + 1) xs

mutual
/-- Paths at which two values disagree. -/
def diffV : Value → Value → List Path
  | .null, .null => []
  | .bool a, .bool b => if a = b then [] else [[]]
  | .num a, .num b => if a = b then [] else [[]]
  | .str a, .str b => if a = b then [] else [[]]
  | .seq xs, .seq ys => diffSeq 0 xs ys
  | .map ex, .map ey =>
      diffEntries ex ey ++
        ((keysE ey).filter (fun k => (lookupE k ex).isNone)).map
          (fun k => [Step.key k])
  | _, _ => [[]]

/-- Sequence comparison, index by index from `i`; an element present on
only one side is a disagreement at its index. -/
def diffSeq (i : Nat) : List Value → List Value → List Path
  | [], ys => diffExtra i ys
  | xs, [] => diffExtra i xs
  | x :: xs, y :: ys =>
      (diffV x y).map (fun p => Step.idx i :: p) ++ diffSeq (i + 1) xs ys

/-- Mapping comparison from the left side: each key of `ex` is looked up
in `ey`; a missing key is a disagreement, a common key recurses. -/
def diffEntries : List (String × Value) → List (String × Value) → List Path
  | [], _ => []
  | (k, vx) :: ex, ey =>
      (match lookupE k ey with
       | none => [[Step.key k]]
       | some vy => (diffV vx vy).map (fun p => Step.key k :: p)) ++
        diffEntries ex ey
end

/-! ## The in-place effect of the GetAtt transformer

The transformer closure in `VerifyOutput` writes
`in[k] = transformGetAtt(v)` into the very map it receives.  Go maps are
reference values and go-cmp hands the transformer the actual maps being
compared, so the walk rewrites the caller's documents in place.  `postV x
y` is the state of the first argument after `cmp.Diff(x, y, trans)`: at
every pair of mappings both sides are rewritten at that level, then the
walk descends into values under common keys (pairing each with the other
side's rewritten value) and into sequences index by index up to the
shorter length; nodes where the two sides have different shapes are not
descended into. -/

/-- One level of the transformer on the opposite side: the value under
each `"Fn::GetAtt"` key is canonicalized. -/
def topTrans (ey : List (String × Value)) : List (String × Value) :=
  ey.map (fun kv =>
    (kv.1, if kv.1 = "Fn::GetAtt" then transformGetAtt kv.2 else kv.2))

mutual
/-- The state of `x` after the walk `cmp.Diff(x, y, trans)`. -/
def postV : Value → Value → Value
  | .seq xs, .seq ys => .seq (postList xs ys)
  | .map ex, .map ey => .map (postEntries ex (topTrans ey))
  | x, _ => x

/-- Elementwise walk of two sequences; elements of `x` beyond the length
of `y` are never visited. -/
def postList : List Value → List Value → List Value
  | [], _ => []
  | xs, [] => xs
  | x :: xs, y :: ys => postV x y :: postList xs ys

/-- One mapping level of the walk on the left side: `GetAtt` strings are
rewritten in place (their replacement contains no mappings, so the walk
cannot rewrite anything below them); other values are visited only when
the key is present on the (already rewritten) right side. -/
def postEntries : List (String × Value) → List (String × Value) →
    List (String × Value)
  | [], _ => []
  | (k, Value.str s) :: ex, ey =>
      (k, if k = "Fn::GetAtt" then transformGetAtt (Value.str s)
          else Value.str s) :: postEntries ex ey
  | (k, v) :: ex, ey =>
      (match lookupE k ey with
       | some vy => (k, postV v vy)
       | none => (k, v)) :: postEntries ex ey
end

/-! ## Rendering the diff -/

/-- Render one path step. -/
def renderStep : Step → String
  | .key k => "." ++ k
  | .idx i => "[" ++ toString i ++ "]"

/-- Render one path. -/
def renderPath : Path → String
  | [] => ""
  | s :: p => renderStep s ++ renderPath p

/-- The human-readable diff: one line per disagreeing path.  The code only
ever branches on whether the rendering is empty. -/
def renderDiff : List Path → String
  | [] => ""
  | p :: d => "- " ++ renderPath p ++ "\n" ++ renderDiff d

/-! ## The entry points (part_000 lines 78-134) -/

/-- A decoded document: the association-list representation of a non-nil
Go `map[string]interface{}`. -/
abbrev Doc := List (String × Value)

/-- Model of `json.Unmarshal(parsed, &output)` with
`output : map[string]interface{}`: JSON `null` leaves the map `nil`
(`none`), a JSON object fills it, any other top-level value is a type
error. -/
def unmarshalTopMap : Value → Except String (Option Doc)
  | .null => .ok none
  | .map m => .ok (some m)
  | _ => .error "json: cannot unmarshal value into Go map"

/-- Model of `ReadString` (part_000 lines 96-109): run the external converter, then
the typed unmarshal; each failure is wrapped with the `"Invalid YAML: "`
prefix. -/
def ReadString (conv : String → Except String Value) (input : String) :
    Except String (Option Doc) :=
  match conv input with
  | .error e => .error ("Invalid YAML: " ++ e)
  | .ok parsed =>
      match unmarshalTopMap parsed with
      | .error e => .error ("Invalid YAML: " ++ e)
      | .ok output => .ok output

/-- Model of `Read` (part_000 lines 78-85): `ioutil.ReadAll` either yields the full
contents or fails; a failure is wrapped with `"Unable to read input: "`,
otherwise the contents go to `ReadString`. -/
def Read (conv : String → Except String Value)
    (r : Except String String) : Except String (Option Doc) :=
  match r with
  | .error e => .error ("Unable to read input: " ++ e)
  | .ok data => ReadString conv data

/-- The operating system's file read, over a table of existing files: a
missing name fails with the usual `open <name>: no such file or
directory`. -/
def osFS (files : List (String × String)) (name : String) :
    Except String String :=
  match files.lookup name with
  | some contents => .ok contents
  | none => .error ("open " ++ name ++ ": no such file or directory")

/-- Model of `ReadFile` (part_000 lines 87-94): read the named file; a failure is
wrapped with `"Unable to read file: "`, otherwise the contents go to
`ReadString`. -/
def ReadFile (conv : String → Except String Value)
    (fs : String → Except String String) (fileName : String) :
    Except String (Option Doc) :=
  match fs fileName with
  | .error e => .error ("Unable to read file: " ++ e)
  | .ok source => ReadString conv source

/-- Model of `VerifyOutput` (part_000 lines 111-134): parse the candidate string;
a parse error is returned as-is.  Otherwise compare the two documents with
the GetAtt transformer applied recursively to both sides; a non-empty
rendered diff is wrapped as a semantic-difference error.  A candidate that
parsed to a `nil` map never equals the (non-nil) source map, which go-cmp
reports as a root disagreement. -/
def VerifyOutput (conv : String → Except String Value) (source : Doc)
    (output : String) : Except String Unit :=
  match ReadString conv output with
  | .error e => .error e
  | .ok none => .error ("Semantic difference after formatting:\n" ++ renderDiff [[]])
  | .ok (some validate) =>
      let d := renderDiff
        (diffV (normGetAtt (.map source)) (normGetAtt (.map validate)))
      if d = "" then .ok ()
      else .error ("Semantic difference after formatting:\n" ++ d)

/-- Pairing of `VerifyOutput` with the caller-visible state of the source
document after the call: the transformer mutates the maps it is handed, so
after a comparison the source is `postV` of itself against the parsed
candidate (against the empty map when the candidate parsed to `nil`: the
transformer still fires on the source's own top level); when parsing
failed no comparison happens and the source is untouched. -/
def VerifyOutputPost (conv : String → Except String Value) (source : Doc)
    (output : String) : Except String Unit × Value :=
  (VerifyOutput conv source output,
   match ReadString conv output with
   | .error _ => .map source
   | .ok none => postV (.map source) (.map [])
   | .ok (some validate) => postV (.map source) (.map validate))

/-! ## Deep structural equality and disagreement, as specification-side
relations

`Veq` is deep structural equality between two decoded documents in the
sense of §4.3 step 3 of the specification: mapping keys match as sets with
equal values per key, sequences match in length and order, scalars by
value.  `Disagree` states that a given path is a point of disagreement
between two documents: the two sides clash right here, or an element or
key present on only one side, or a disagreement deeper inside a common
element.  Both are defined independently of the `diffV` walk and are
related to it by theorems below. -/

/-- Clash of two values at their root: different kinds of value, or equal
scalar kinds with different contents. -/
def baseClash : Value → Value → Bool
  | .null, .null => false
  | .bool a, .bool b => decide (a ≠ b)
  | .num a, .num b => decide (a ≠ b)
  | .str a, .str b => decide (a ≠ b)
  | .seq _, .seq _ => false
  | .map _, .map _ => false
  | _, _ => true

/-- Deep structural equality of decoded documents: mapping keys as sets
with lookup-based values, sequences in length and order, scalars by
value. -/
inductive Veq : Value → Value → Prop where
  | null : Veq .null .null
  | bool : ∀ b, Veq (.bool b) (.bool b)
  | num : ∀ n, Veq (.num n) (.num n)
  | str : ∀ s, Veq (.str s) (.str s)
  | seq : ∀ xs ys, xs.length = ys.length →
      (∀ j x y, xs.get? j = some x → ys.get? j = some y → Veq x y) →
      Veq (.seq xs) (.seq ys)
  | map : ∀ ex ey,
      (∀ k, (lookupE k ex).isSome = (lookupE k ey).isSome) →
      (∀ k vx vy, lookupE k ex = some vx → lookupE k ey = some vy →
        Veq vx vy) →
      Veq (.map ex) (.map ey)

/-- Points of disagreement between two documents: a clash at this very
node, a disagreement inside a common sequence element or mapping key, a
sequence element beyond the shorter length, or a mapping key present on
one side only. -/
inductive Disagree : Value → Value → Path → Prop where
  | clash : ∀ x y, baseClash x y = true → Disagree x y []
  | seqElem : ∀ xs ys j x y p, xs.get? j = some x → ys.get? j = some y →
      Disagree x y p → Disagree (.seq xs) (.seq ys) (Step.idx j :: p)
  | seqLen : ∀ xs ys j, min xs.length ys.length ≤ j →
      j < max xs.length ys.length →
      Disagree (.seq xs) (.seq ys) [Step.idx j]
  | mapElem : ∀ ex ey k vx vy p, (k, vx) ∈ ex → lookupE k ey = some vy →
      Disagree vx vy p → Disagree (.map ex) (.map ey) (Step.key k :: p)
  | mapMissR : ∀ ex ey k vx, (k, vx) ∈ ex → lookupE k ey = none →
      Disagree (.map ex) (.map ey) [Step.key k]
  | mapMissL : ∀ ex ey k, k ∈ keysE ey → lookupE k ex = none →
      Disagree (.map ex) (.map ey) [Step.key k]

/-! ## Elementary facts about the canonicalizer -/

theorem splitCharsAtFirst_of_not_mem {sep : Char} :
    ∀ {l : List Char}, sep ∉ l → splitCharsAtFirst sep l = none := by
  intro l h
  induction l with
  | nil => rfl
  | cons c cs ih =>
    simp only [List.mem_cons, not_or] at h
    simp only [splitCharsAtFirst, if_neg (Ne.symm h.1), ih h.2]

theorem splitCharsAtFirst_append {sep : Char} :
    ∀ {a b : List Char}, sep ∉ a →
      splitCharsAtFirst sep (a ++ sep :: b) = some (a, b) := by
  intro a b h
  induction a with
  | nil => simp [splitCharsAtFirst]
  | cons c cs ih =>
    simp only [List.mem_cons, not_or] at h
    simp only [List.cons_append, splitCharsAtFirst, if_neg (Ne.symm h.1)]
    rw [show cs.append (sep :: b) = cs ++ sep :: b from rfl, ih h.2]

/-- Either the string has no dot and is kept whole, or it splits into the
part before the first dot and the rest. -/
theorem goSplitNDot2_cases (s : String) :
    goSplitNDot2 s = [s] ∨ ∃ a b, goSplitNDot2 s = [a, b] := by
  unfold goSplitNDot2
  cases splitCharsAtFirst '.' s.data with
  | none => left; rfl
  | some ab => right; exact ⟨_, _, rfl⟩

theorem transformGetAtt_not_str : ∀ {v : Value}, (∀ s, v ≠ .str s) →
    transformGetAtt v = v := by
  intro v h
  cases v with
  | str s => exact absurd rfl (h s)
  | null => rfl
  | bool b => rfl
  | num n => rfl
  | seq xs => rfl
  | map ex => rfl

/-- Applied to a string, the canonicalizer yields either `[part, null]`
(no dot) or `[part0, part1]` (split at the first dot): always a length-2
sequence of strings and nulls, which in particular contains no mapping. -/
theorem transformGetAtt_str_cases (s : String) :
    transformGetAtt (.str s) = .seq [.str s, .null] ∨
      ∃ a b, transformGetAtt (.str s) = .seq [.str a, .str b] := by
  rcases goSplitNDot2_cases s with h | ⟨a, b, h⟩
  · left; simp [transformGetAtt, h]
  · right; exact ⟨a, b, by simp [transformGetAtt, h]⟩

/-- The GetAtt rewrite is vacuous below a canonicalized string payload. -/
theorem norm_transformGetAtt_str (s : String) :
    normGetAtt (transformGetAtt (.str s)) = transformGetAtt (.str s) := by
  rcases transformGetAtt_str_cases s with h | ⟨a, b, h⟩ <;>
    simp [h, normGetAtt, normList]

theorem wf_transformGetAtt_str (s : String) :
    wfV (transformGetAtt (.str s)) = true := by
  rcases transformGetAtt_str_cases s with h | ⟨a, b, h⟩ <;>
    simp [h, wfV, wfL]

/-! ## Lookup and key lemmas -/

/-- Per-entry value of one mapping level of the recursive rewrite. -/
def nev (k : String) : Value → Value
  | .str s => if k = "Fn::GetAtt" then transformGetAtt (.str s) else .str s
  | v => normGetAtt v

/-- Per-entry value of one level of the transformer alone. -/
def tev (k : String) (v : Value) : Value :=
  if k = "Fn::GetAtt" then transformGetAtt v else v

theorem norm_tev (k : String) (v : Value) :
    normGetAtt (tev k v) = nev k v := by
  cases v with
  | str s =>
    by_cases h : k = "Fn::GetAtt"
    · simp [tev, nev, h, norm_transformGetAtt_str]
    · simp [tev, nev, h, normGetAtt]
  | null => simp [tev, nev, transformGetAtt]
  | bool b => simp [tev, nev, transformGetAtt]
  | num n => simp [tev, nev, transformGetAtt]
  | seq xs => by_cases h : k = "Fn::GetAtt" <;> simp [tev, nev, h, transformGetAtt]
  | map ex => by_cases h : k = "Fn::GetAtt" <;> simp [tev, nev, h, transformGetAtt]

theorem lookupE_normEntries (k : String) :
    ∀ ey, lookupE k (normEntries ey) = (lookupE k ey).map (nev k) := by
  intro ey
  induction ey with
  | nil => rfl
  | cons kv ey ih =>
    obtain ⟨k', v⟩ := kv
    cases v <;> by_cases hk : k = k' <;>
      simp [normEntries, lookupE, hk, nev, ih, normGetAtt]

theorem lookupE_map_val (f : String → Value → Value) :
    ∀ (ey : List (String × Value)) (k),
      lookupE k (ey.map (fun kv => (kv.1, f kv.1 kv.2))) =
        (lookupE k ey).map (f k) := by
  intro ey
  induction ey with
  | nil => intro k; rfl
  | cons kv ey ih =>
    intro k
    obtain ⟨k', v⟩ := kv
    by_cases hk : k = k'
    · subst hk; simp [lookupE]
    · simp [lookupE, hk, ih]

theorem lookupE_topTrans (k : String) (ey : List (String × Value)) :
    lookupE k (topTrans ey) = (lookupE k ey).map (tev k) :=
  lookupE_map_val tev ey k

theorem lookupE_mem : ∀ {ex k v}, lookupE k ex = some v → (k, v) ∈ ex := by
  intro ex
  induction ex with
  | nil => intro k v h; cases h
  | cons kv ex ih =>
    intro k v h
    obtain ⟨k', v'⟩ := kv
    by_cases hk : k = k'
    · subst hk
      simp [lookupE] at h
      simp [h]
    · simp [lookupE, hk] at h
      exact List.mem_cons_of_mem _ (ih h)

theorem lookupE_isSome_iff_mem_keys :
    ∀ {ex k}, (lookupE k ex).isSome = true ↔ k ∈ keysE ex := by
  intro ex
  induction ex with
  | nil => intro k; simp [lookupE, keysE]
  | cons kv ex ih =>
    intro k
    obtain ⟨k', v'⟩ := kv
    by_cases hk : k = k' <;> simp [lookupE, keysE, hk, ih]

theorem mem_keysE_of_mem : ∀ {ex : List (String × Value)} {kv}, kv ∈ ex →
    kv.1 ∈ keysE ex := by
  intro ex
  induction ex with
  | nil => intro kv h; cases h
  | cons kv' ex ih =>
    intro kv h
    obtain ⟨k', v'⟩ := kv'
    rcases List.mem_cons.mp h with rfl | h
    · simp [keysE]
    · simp [keysE]; right; exact ih h

/-! ## Well-formedness extraction and preservation -/

theorem wfL_val : ∀ {xs x}, wfL xs = true → x ∈ xs → wfV x = true := by
  intro xs
  induction xs with
  | nil => intro x _ h; cases h
  | cons y ys ih =>
    intro x hwf h
    simp [wfL] at hwf
    rcases List.mem_cons.mp h with rfl | h
    · exact hwf.1
    · exact ih hwf.2 h

theorem wfE_val : ∀ {ex kv}, wfE ex = true → kv ∈ ex → wfV kv.2 = true := by
  intro ex
  induction ex with
  | nil => intro kv _ h; cases h
  | cons kv' ex ih =>
    intro kv hwf h
    obtain ⟨k', v'⟩ := kv'
    simp only [wfE, Bool.and_eq_true] at hwf
    rcases List.mem_cons.mp h with rfl | h
    · exact hwf.1.2
    · exact ih hwf.2 h

/-- In a well-formed mapping every entry is found by looking up its own
key: keys are unique, so the entry is the first with that key. -/
theorem wfE_lookup_self : ∀ {ex kv}, wfE ex = true → kv ∈ ex →
    lookupE kv.1 ex = some kv.2 := by
  intro ex
  induction ex with
  | nil => intro kv _ h; cases h
  | cons kv' ex ih =>
    intro kv hwf h
    obtain ⟨k', v'⟩ := kv'
    simp only [wfE, Bool.and_eq_true] at hwf
    rcases List.mem_cons.mp h with rfl | h
    · simp [lookupE]
    · have hl := ih hwf.2 h
      by_cases hk : kv.1 = k'
      · exfalso
        rw [hk] at hl
        rw [hl] at hwf
        simp [Option.isNone] at hwf
      · simp [lookupE, hk, hl]

theorem get?_mem_val : ∀ {xs : List Value} {j x}, xs.get? j = some x → x ∈ xs := by
  intro xs
  induction xs with
  | nil => intro j x h; simp [List.get?] at h
  | cons y ys ih =>
    intro j x h
    cases j with
    | zero =>
      simp only [List.get?] at h
      exact (Option.some_inj.mp h) ▸ List.mem_cons_self y ys
    | succ j => exact List.mem_cons_of_mem _ (ih h)

/-- The recursive GetAtt rewrite preserves well-formedness: it never
changes a key, and a canonicalized payload is a sequence of scalars. -/
theorem wf_norm : ∀ x, wfV x = true → wfV (normGetAtt x) = true := by
  apply Value.rec
    (motive_1 := fun x => wfV x = true → wfV (normGetAtt x) = true)
    (motive_2 := fun xs => wfL xs = true → wfL (normList xs) = true)
    (motive_3 := fun ex => wfE ex = true → wfE (normEntries ex) = true)
    (motive_4 := fun kv => wfV kv.2 = true → wfV (normGetAtt kv.2) = true)
  · intro h; exact h
  · intro b h; exact h
  · intro n h; exact h
  · intro s h; exact h
  · intro xs ih h
    simp only [normGetAtt, wfV]
    exact ih h
  · intro ex ih h
    simp only [normGetAtt, wfV]
    exact ih h
  · intro h; exact h
  · intro x xs ihx ihxs h
    simp only [wfL, Bool.and_eq_true] at h
    simp only [normList, wfL, Bool.and_eq_true]
    exact ⟨ihx h.1, ihxs h.2⟩
  · intro h; exact h
  · intro kv ex ihkv ihex h
    obtain ⟨k, v⟩ := kv
    simp only [wfE, Bool.and_eq_true] at h
    cases v
    case str s =>
      simp only [normEntries, wfE, Bool.and_eq_true]
      refine ⟨⟨?_, ?_⟩, ihex h.2⟩
      · rw [lookupE_normEntries]
        simpa using h.1.1
      · by_cases hk : k = "Fn::GetAtt"
        · simp [hk, wf_transformGetAtt_str]
        · simp [hk, wfV]
    all_goals (
      simp only [normEntries, wfE, Bool.and_eq_true]
      refine ⟨⟨?_, ihkv h.1.2⟩, ihex h.2⟩
      rw [lookupE_normEntries]
      simpa using h.1.1)
  · intro k v ih; exact ih

/-! ## Characterizing an empty diff -/

theorem diffExtra_ne_nil (i : Nat) (x : Value) (xs : List Value) :
    diffExtra i (x :: xs) ≠ [] := by
  simp [diffExtra]

theorem diffSeq_nil_iff : ∀ (xs ys : List Value) (i : Nat),
    diffSeq i xs ys = [] ↔
      (xs.length = ys.length ∧
        ∀ j x y, xs.get? j = some x → ys.get? j = some y →
          diffV x y = []) := by
  intro xs
  induction xs with
  | nil =>
    intro ys i
    cases ys with
    | nil => simp [diffSeq, diffExtra]
    | cons y ys =>
      simp only [diffSeq, diffExtra]
      constructor
      · intro h; cases h
      · rintro ⟨h, _⟩; cases h
  | cons x xs ih =>
    intro ys i
    cases ys with
    | nil =>
      simp only [diffSeq, diffExtra]
      constructor
      · intro h; cases h
      · rintro ⟨h, _⟩; cases h
    | cons y ys =>
      simp only [diffSeq, List.append_eq_nil, List.map_eq_nil_iff, ih,
        List.length_cons, Nat.succ.injEq]
      constructor
      · rintro ⟨h0, hlen, hrest⟩
        refine ⟨hlen, ?_⟩
        intro j a b ha hb
        cases j with
        | zero =>
          simp only [List.get?] at ha hb
          cases ha; cases hb; exact h0
        | succ j => exact hrest j a b ha hb
      · rintro ⟨hlen, hall⟩
        exact ⟨hall 0 x y rfl rfl, hlen,
          fun j a b ha hb => hall (j + 1) a b ha hb⟩

theorem diffEntries_nil_iff : ∀ (ex ey : List (String × Value)),
    diffEntries ex ey = [] ↔
      ∀ kv ∈ ex, ∃ vy, lookupE kv.1 ey = some vy ∧ diffV kv.2 vy = [] := by
  intro ex
  induction ex with
  | nil => intro ey; simp [diffEntries]
  | cons kv ex ih =>
    intro ey
    obtain ⟨k, vx⟩ := kv
    cases hl : lookupE k ey with
    | none => simp [diffEntries, hl]
    | some vy => simp [diffEntries, hl, ih]

/-- A well-formed document never disagrees with itself. -/
theorem diff_self : ∀ x, wfV x = true → diffV x x = [] := by
  apply Value.rec
    (motive_1 := fun x => wfV x = true → diffV x x = [])
    (motive_2 := fun xs => wfL xs = true → ∀ x ∈ xs, diffV x x = [])
    (motive_3 := fun ex => wfE ex = true → ∀ kv ∈ ex, diffV kv.2 kv.2 = [])
    (motive_4 := fun kv => wfV kv.2 = true → diffV kv.2 kv.2 = [])
  · intro _; rfl
  · intro b _; simp [diffV]
  · intro n _; simp [diffV]
  · intro s _; simp [diffV]
  · intro xs ih h
    simp only [diffV]
    rw [diffSeq_nil_iff]
    exact ⟨rfl, fun j x y hx hy => by
      rw [hx] at hy
      cases hy
      exact ih h x (get?_mem_val hx)⟩
  · intro ex ih h
    simp only [diffV, List.append_eq_nil]
    constructor
    · rw [diffEntries_nil_iff]
      intro kv hkv
      exact ⟨kv.2, wfE_lookup_self h hkv, ih h kv hkv⟩
    · simp only [List.map_eq_nil_iff, List.filter_eq_nil_iff]
      intro k hk
      have hs := lookupE_isSome_iff_mem_keys.mpr hk
      cases hx : lookupE k ex with
      | some v => simp
      | none => rw [hx] at hs; cases hs
  · intro _ x hx; cases hx
  · intro x xs ihx ihxs h y hy
    simp only [wfL, Bool.and_eq_true] at h
    rcases List.mem_cons.mp hy with rfl | hy
    · exact ihx h.1
    · exact ihxs h.2 y hy
  · intro _ kv hkv; cases hkv
  · intro kv ex ihkv ihex h kv' hkv'
    obtain ⟨k, v⟩ := kv
    simp only [wfE, Bool.and_eq_true] at h
    rcases List.mem_cons.mp hkv' with rfl | hkv'
    · exact ihkv h.1.2
    · exact ihex h.2 kv' hkv'
  · intro k v ih; exact ih

/-- An empty diff means the two documents are deep-structurally equal in
the sense of the specification. -/
theorem diff_nil_veq : ∀ x y, diffV x y = [] → Veq x y := by
  apply Value.rec
    (motive_1 := fun x => ∀ y, diffV x y = [] → Veq x y)
    (motive_2 := fun xs => ∀ x ∈ xs, ∀ y, diffV x y = [] → Veq x y)
    (motive_3 := fun ex => ∀ kv ∈ ex, ∀ y, diffV kv.2 y = [] → Veq kv.2 y)
    (motive_4 := fun kv => ∀ y, diffV kv.2 y = [] → Veq kv.2 y)
  · intro y h
    cases y with
    | null => exact Veq.null
    | bool b => cases h
    | num n => cases h
    | str s => cases h
    | seq ys => cases h
    | map ey => cases h
  · intro a y h
    cases y with
    | bool b =>
      have : a = b := by
        by_contra hab
        simp [diffV, hab] at h
      exact this ▸ Veq.bool a
    | null => cases h
    | num n => cases h
    | str s => cases h
    | seq ys => cases h
    | map ey => cases h
  · intro a y h
    cases y with
    | num b =>
      have : a = b := by
        by_contra hab
        simp [diffV, hab] at h
      exact this ▸ Veq.num a
    | null => cases h
    | bool b => cases h
    | str s => cases h
    | seq ys => cases h
    | map ey => cases h
  · intro a y h
    cases y with
    | str b =>
      have : a = b := by
        by_contra hab
        simp [diffV, hab] at h
      exact this ▸ Veq.str a
    | null => cases h
    | bool b => cases h
    | num n => cases h
    | seq ys => cases h
    | map ey => cases h
  · intro xs ih y h
    cases y with
    | seq ys =>
      rw [show diffV (.seq xs) (.seq ys) = diffSeq 0 xs ys from rfl,
        diffSeq_nil_iff] at h
      exact Veq.seq xs ys h.1 (fun j x y hx hy =>
        ih x (get?_mem_val hx) y (h.2 j x y hx hy))
    | null => cases h
    | bool b => cases h
    | num n => cases h
    | str s => cases h
    | map ey => cases h
  · intro ex ih y h
    cases y with
    | map ey =>
      rw [show diffV (.map ex) (.map ey) = diffEntries ex ey ++
          ((keysE ey).filter (fun k => (lookupE k ex).isNone)).map
            (fun k => [Step.key k]) from rfl,
        List.append_eq_nil, diffEntries_nil_iff] at h
      obtain ⟨hent, hmiss⟩ := h
      simp only [List.map_eq_nil_iff, List.filter_eq_nil_iff] at hmiss
      apply Veq.map
      · intro k
        cases hx : lookupE k ex with
        | some vx =>
          obtain ⟨vy, hvy, _⟩ := hent (k, vx) (lookupE_mem hx)
          simp [hvy]
        | none =>
          cases hy : lookupE k ey with
          | none => rfl
          | some vy =>
            exfalso
            have hk : k ∈ keysE ey :=
              lookupE_isSome_iff_mem_keys.mp (by simp [hy])
            have hne := hmiss k hk
            rw [hx] at hne
            simp [Option.isNone] at hne
      · intro k vx vy hx hy
        obtain ⟨vy', hvy', hd⟩ := hent (k, vx) (lookupE_mem hx)
        rw [hy] at hvy'
        cases hvy'
        exact ih (k, vx) (lookupE_mem hx) vy hd
    | null => cases h
    | bool b => cases h
    | num n => cases h
    | str s => cases h
    | seq ys => cases h
  · intro x hx; cases hx
  · intro x xs ihx ihxs z hz
    rcases List.mem_cons.mp hz with rfl | hz
    · exact ihx
    · exact ihxs z hz
  · intro kv hkv; cases hkv
  · intro kv ex ihkv ihex kv' hkv'
    rcases List.mem_cons.mp hkv' with rfl | hkv'
    · exact ihkv
    · exact ihex kv' hkv'
  · intro k v ih; exact ih

/-! ## The rendered diff is empty exactly for an empty path list -/

theorem renderDiff_eq_empty_iff : ∀ d, renderDiff d = "" ↔ d = [] := by
  intro d
  cases d with
  | nil => simp [renderDiff]
  | cons p d =>
    simp only [renderDiff]
    constructor
    · intro h
      have hlen := congrArg String.length h
      rw [String.length_append, String.length_append,
        String.length_append] at hlen
      have h2 : ("- ").length = 2 := rfl
      have h0 : ("" : String).length = 0 := rfl
      omega
    · intro h; cases h

/-! ## The diff names exactly the disagreement points -/

theorem mem_diffExtra_iff : ∀ (ys : List Value) (i : Nat) (p : Path),
    p ∈ diffExtra i ys ↔ ∃ j, j < ys.length ∧ p = [Step.idx (i + j)] := by
  intro ys
  induction ys with
  | nil => intro i p; simp [diffExtra]
  | cons y ys ih =>
    intro i p
    simp only [diffExtra, List.mem_cons, ih, List.length_cons]
    constructor
    · rintro (rfl | ⟨j, hj, rfl⟩)
      · exact ⟨0, by omega, by rw [Nat.add_zero]⟩
      · exact ⟨j + 1, by omega, by rw [show i + (j + 1) = i + 1 + j by omega]⟩
    · rintro ⟨j, hj, rfl⟩
      cases j with
      | zero => left; rw [Nat.add_zero]
      | succ j =>
        right
        exact ⟨j, by omega, by rw [show i + 1 + j = i + (j + 1) by omega]⟩

theorem mem_diffSeq_iff : ∀ (xs ys : List Value) (i : Nat) (p : Path),
    p ∈ diffSeq i xs ys ↔
      ((∃ j x y q, xs.get? j = some x ∧ ys.get? j = some y ∧
          q ∈ diffV x y ∧ p = Step.idx (i + j) :: q) ∨
        (∃ j, min xs.length ys.length ≤ j ∧
          j < max xs.length ys.length ∧ p = [Step.idx (i + j)])) := by
  intro xs
  induction xs with
  | nil =>
    intro ys i p
    simp only [diffSeq]
    rw [mem_diffExtra_iff]
    constructor
    · rintro ⟨j, hj, rfl⟩
      exact Or.inr ⟨j, by simp, by simpa using hj, rfl⟩
    · rintro (⟨j, x, y, q, hx, _⟩ | ⟨j, _, hj, rfl⟩)
      · simp [List.get?] at hx
      · exact ⟨j, by simpa using hj, rfl⟩
  | cons x xs ih =>
    intro ys i p
    cases ys with
    | nil =>
      simp only [diffSeq]
      rw [mem_diffExtra_iff]
      constructor
      · rintro ⟨j, hj, rfl⟩
        exact Or.inr ⟨j, by simp, by simpa using hj, rfl⟩
      · rintro (⟨j, a, b, q, _, hy, _⟩ | ⟨j, _, hj, rfl⟩)
        · simp [List.get?] at hy
        · exact ⟨j, by simpa using hj, rfl⟩
    | cons y ys =>
      rw [show diffSeq i (x :: xs) (y :: ys) =
        (diffV x y).map (fun p => Step.idx i :: p) ++ diffSeq (i + 1) xs ys
        from rfl]
      rw [List.mem_append, List.mem_map, ih]
      constructor
      · rintro ((⟨q, hq, rfl⟩) | (⟨j, a, b, q, ha, hb, hq, rfl⟩ | ⟨j, h1, h2, rfl⟩))
        · exact Or.inl ⟨0, x, y, q, rfl, rfl, hq, by rw [Nat.add_zero]⟩
        · exact Or.inl ⟨j + 1, a, b, q, ha, hb, hq,
            by rw [show i + (j + 1) = i + 1 + j by omega]⟩
        · refine Or.inr ⟨j + 1, ?_, ?_, by rw [show i + (j + 1) = i + 1 + j by omega]⟩
          · simp only [List.length_cons]; omega
          · simp only [List.length_cons]; omega
      · rintro (⟨j, a, b, q, ha, hb, hq, rfl⟩ | ⟨j, h1, h2, rfl⟩)
        · cases j with
          | zero =>
            simp only [List.get?] at ha hb
            cases ha; cases hb
            exact Or.inl ⟨q, hq, by rw [Nat.add_zero]⟩
          | succ j =>
            exact Or.inr (Or.inl ⟨j, a, b, q, ha, hb, hq,
              by rw [show i + 1 + j = i + (j + 1) by omega]⟩)
        · simp only [List.length_cons] at h1 h2
          have hj : 1 ≤ j := by omega
          refine Or.inr (Or.inr ⟨j - 1, by omega, by omega, ?_⟩)
          rw [show i + 1 + (j - 1) = i + j by omega]

theorem mem_diffEntries_iff : ∀ (ex ey : List (String × Value)) (p : Path),
    p ∈ diffEntries ex ey ↔
      ∃ k vx, (k, vx) ∈ ex ∧
        ((lookupE k ey = none ∧ p = [Step.key k]) ∨
          (∃ vy q, lookupE k ey = some vy ∧ q ∈ diffV vx vy ∧
            p = Step.key k :: q)) := by
  intro ex
  induction ex with
  | nil => intro ey p; simp [diffEntries]
  | cons kv ex ih =>
    intro ey p
    obtain ⟨k, vx⟩ := kv
    rw [show diffEntries ((k, vx) :: ex) ey =
      (match lookupE k ey with
       | none => [[Step.key k]]
       | some vy => (diffV vx vy).map (fun p => Step.key k :: p)) ++
        diffEntries ex ey from rfl]
    rw [List.mem_append, ih]
    constructor
    · rintro (hhead | ⟨k', vx', hmem, hrest⟩)
      · cases hl : lookupE k ey with
        | none =>
          rw [hl] at hhead
          simp only [List.mem_singleton] at hhead
          exact ⟨k, vx, List.mem_cons_self _ _, Or.inl ⟨hl, hhead⟩⟩
        | some vy =>
          rw [hl] at hhead
          simp only [List.mem_map] at hhead
          obtain ⟨q, hq, rfl⟩ := hhead
          exact ⟨k, vx, List.mem_cons_self _ _,
            Or.inr ⟨vy, q, hl, hq, rfl⟩⟩
      · exact ⟨k', vx', List.mem_cons_of_mem _ hmem, hrest⟩
    · rintro ⟨k', vx', hmem, hrest⟩
      rcases List.mem_cons.mp hmem with heq | hmem'
      · cases heq
        rcases hrest with ⟨hl, rfl⟩ | ⟨vy, q, hl, hq, rfl⟩
        · rw [hl]; left; simp
        · rw [hl]; left; simp only [List.mem_map]; exact ⟨q, hq, rfl⟩
      · exact Or.inr ⟨k', vx', hmem', hrest⟩

/-- The diff computed by the walk contains exactly the disagreement
points of the two documents. -/
theorem mem_diff_iff : ∀ x y p, p ∈ diffV x y ↔ Disagree x y p := by
  apply Value.rec
    (motive_1 := fun x => ∀ y p, p ∈ diffV x y ↔ Disagree x y p)
    (motive_2 := fun xs => ∀ x ∈ xs, ∀ y p, p ∈ diffV x y ↔ Disagree x y p)
    (motive_3 := fun ex => ∀ kv ∈ ex, ∀ y p,
      p ∈ diffV kv.2 y ↔ Disagree kv.2 y p)
    (motive_4 := fun kv => ∀ y p, p ∈ diffV kv.2 y ↔ Disagree kv.2 y p)
  · intro y p
    cases y with
    | null =>
      constructor
      · intro hp; simp [diffV] at hp
      · intro hd; cases hd with
        | clash _ _ hc => simp [baseClash] at hc
    | bool b =>
      constructor
      · intro hp
        have hp' : p = [] := by simpa [diffV] using hp
        subst hp'
        exact Disagree.clash _ _ rfl
      · intro hd; cases hd; simp [diffV]
    | num n =>
      constructor
      · intro hp
        have hp' : p = [] := by simpa [diffV] using hp
        subst hp'
        exact Disagree.clash _ _ rfl
      · intro hd; cases hd; simp [diffV]
    | str s =>
      constructor
      · intro hp
        have hp' : p = [] := by simpa [diffV] using hp
        subst hp'
        exact Disagree.clash _ _ rfl
      · intro hd; cases hd; simp [diffV]
    | seq ys =>
      constructor
      · intro hp
        have hp' : p = [] := by simpa [diffV] using hp
        subst hp'
        exact Disagree.clash _ _ rfl
      · intro hd; cases hd; simp [diffV]
    | map ey =>
      constructor
      · intro hp
        have hp' : p = [] := by simpa [diffV] using hp
        subst hp'
        exact Disagree.clash _ _ rfl
      · intro hd; cases hd; simp [diffV]
  · intro a y p
    cases y with
    | bool b =>
      by_cases hab : a = b
      · subst hab
        constructor
        · intro hp; simp [diffV] at hp
        · intro hd; cases hd with
          | clash _ _ hc => simp [baseClash] at hc
      · constructor
        · intro hp
          have hp' : p = [] := by simpa [diffV, hab] using hp
          subst hp'
          exact Disagree.clash _ _ (by simp [baseClash, hab])
        · intro hd; cases hd; simp [diffV, hab]
    | null =>
      constructor
      · intro hp
        have hp' : p = [] := by simpa [diffV] using hp
        subst hp'
        exact Disagree.clash _ _ rfl
      · intro hd; cases hd; simp [diffV]
    | num n =>
      constructor
      · intro hp
        have hp' : p = [] := by simpa [diffV] using hp
        subst hp'
        exact Disagree.clash _ _ rfl
      · intro hd; cases hd; simp [diffV]
    | str s =>
      constructor
      · intro hp
        have hp' : p = [] := by simpa [diffV] using hp
        subst hp'
        exact Disagree.clash _ _ rfl
      · intro hd; cases hd; simp [diffV]
    | seq ys =>
      constructor
      · intro hp
        have hp' : p = [] := by simpa [diffV] using hp
        subst hp'
        exact Disagree.clash _ _ rfl
      · intro hd; cases hd; simp [diffV]
    | map ey =>
      constructor
      · intro hp
        have hp' : p = [] := by simpa [diffV] using hp
        subst hp'
        exact Disagree.clash _ _ rfl
      · intro hd; cases hd; simp [diffV]
  · intro a y p
    cases y with
    | num b =>
      by_cases hab : a = b
      · subst hab
        constructor
        · intro hp; simp [diffV] at hp
        · intro hd; cases hd with
          | clash _ _ hc => simp [baseClash] at hc
      · constructor
        · intro hp
          have hp' : p = [] := by simpa [diffV, hab] using hp
          subst hp'
          exact Disagree.clash _ _ (by simp [baseClash, hab])
        · intro hd; cases hd; simp [diffV, hab]
    | null =>
      constructor
      · intro hp
        have hp' : p = [] := by simpa [diffV] using hp
        subst hp'
        exact Disagree.clash _ _ rfl
      · intro hd; cases hd; simp [diffV]
    | bool b =>
      constructor
      · intro hp
        have hp' : p = [] := by simpa [diffV] using hp
        subst hp'
        exact Disagree.clash _ _ rfl
      · intro hd; cases hd; simp [diffV]
    | str s =>
      constructor
      · intro hp
        have hp' : p = [] := by simpa [diffV] using hp
        subst hp'
        exact Disagree.clash _ _ rfl
      · intro hd; cases hd; simp [diffV]
    | seq ys =>
      constructor
      · intro hp
        have hp' : p = [] := by simpa [diffV] using hp
        subst hp'
        exact Disagree.clash _ _ rfl
      · intro hd; cases hd; simp [diffV]
    | map ey =>
      constructor
      · intro hp
        have hp' : p = [] := by simpa [diffV] using hp
        subst hp'
        exact Disagree.clash _ _ rfl
      · intro hd; cases hd; simp [diffV]
  · intro a y p
    cases y with
    | str b =>
      by_cases hab : a = b
      · subst hab
        constructor
        · intro hp; simp [diffV] at hp
        · intro hd; cases hd with
          | clash _ _ hc => simp [baseClash] at hc
      · constructor
        · intro hp
          have hp' : p = [] := by simpa [diffV, hab] using hp
          subst hp'
          exact Disagree.clash _ _ (by simp [baseClash, hab])
        · intro hd; cases hd; simp [diffV, hab]
    | null =>
      constructor
      · intro hp
        have hp' : p = [] := by simpa [diffV] using hp
        subst hp'
        exact Disagree.clash _ _ rfl
      · intro hd; cases hd; simp [diffV]
    | bool b =>
      constructor
      · intro hp
        have hp' : p = [] := by simpa [diffV] using hp
        subst hp'
        exact Disagree.clash _ _ rfl
      · intro hd; cases hd; simp [diffV]
    | num n =>
      constructor
      · intro hp
        have hp' : p = [] := by simpa [diffV] using hp
        subst hp'
        exact Disagree.clash _ _ rfl
      · intro hd; cases hd; simp [diffV]
    | seq ys =>
      constructor
      · intro hp
        have hp' : p = [] := by simpa [diffV] using hp
        subst hp'
        exact Disagree.clash _ _ rfl
      · intro hd; cases hd; simp [diffV]
    | map ey =>
      constructor
      · intro hp
        have hp' : p = [] := by simpa [diffV] using hp
        subst hp'
        exact Disagree.clash _ _ rfl
      · intro hd; cases hd; simp [diffV]
  · intro xs ih y p
    cases y with
    | seq ys =>
      rw [show diffV (.seq xs) (.seq ys) = diffSeq 0 xs ys from rfl,
        mem_diffSeq_iff]
      simp only [Nat.zero_add]
      constructor
      · rintro (⟨j, x, y, q, hx, hy, hq, rfl⟩ | ⟨j, h1, h2, rfl⟩)
        · exact Disagree.seqElem xs ys j x y q hx hy
            ((ih x (get?_mem_val hx) y q).mp hq)
        · exact Disagree.seqLen xs ys j h1 h2
      · intro hd
        cases hd with
        | seqElem _ _ j x y q hx hy hdq =>
          exact Or.inl ⟨j, x, y, q, hx, hy,
            (ih x (get?_mem_val hx) y q).mpr hdq, rfl⟩
        | seqLen _ _ j h1 h2 => exact Or.inr ⟨j, h1, h2, rfl⟩
        | clash _ _ hc => simp [baseClash] at hc
    | null =>
      constructor
      · intro hp
        have hp' : p = [] := by simpa [diffV] using hp
        subst hp'
        exact Disagree.clash _ _ rfl
      · intro hd; cases hd; simp [diffV]
    | bool b =>
      constructor
      · intro hp
        have hp' : p = [] := by simpa [diffV] using hp
        subst hp'
        exact Disagree.clash _ _ rfl
      · intro hd; cases hd; simp [diffV]
    | num n =>
      constructor
      · intro hp
        have hp' : p = [] := by simpa [diffV] using hp
        subst hp'
        exact Disagree.clash _ _ rfl
      · intro hd; cases hd; simp [diffV]
    | str s =>
      constructor
      · intro hp
        have hp' : p = [] := by simpa [diffV] using hp
        subst hp'
        exact Disagree.clash _ _ rfl
      · intro hd; cases hd; simp [diffV]
    | map ey =>
      constructor
      · intro hp
        have hp' : p = [] := by simpa [diffV] using hp
        subst hp'
        exact Disagree.clash _ _ rfl
      · intro hd; cases hd; simp [diffV]
  · intro ex ih y p
    cases y with
    | map ey =>
      rw [show diffV (.map ex) (.map ey) = diffEntries ex ey ++
          ((keysE ey).filter (fun k => (lookupE k ex).isNone)).map
            (fun k => [Step.key k]) from rfl]
      rw [List.mem_append, mem_diffEntries_iff]
      constructor
      · rintro (⟨k, vx, hmem, (⟨hl, rfl⟩ | ⟨vy, q, hl, hq, rfl⟩)⟩ | hmiss)
        · exact Disagree.mapMissR ex ey k vx hmem hl
        · exact Disagree.mapElem ex ey k vx vy q hmem hl
            ((ih (k, vx) hmem vy q).mp hq)
        · simp only [List.mem_map, List.mem_filter] at hmiss
          obtain ⟨k, ⟨hk, hn⟩, rfl⟩ := hmiss
          exact Disagree.mapMissL ex ey k hk (Option.isNone_iff_eq_none.mp hn)
      · intro hd
        cases hd with
        | mapElem _ _ k vx vy q hmem hl hdq =>
          exact Or.inl ⟨k, vx, hmem,
            Or.inr ⟨vy, q, hl, (ih (k, vx) hmem vy q).mpr hdq, rfl⟩⟩
        | mapMissR _ _ k vx hmem hl =>
          exact Or.inl ⟨k, vx, hmem, Or.inl ⟨hl, rfl⟩⟩
        | mapMissL _ _ k hk hl =>
          refine Or.inr ?_
          simp only [List.mem_map, List.mem_filter]
          exact ⟨k, ⟨hk, by simp [hl, Option.isNone]⟩, rfl⟩
        | clash _ _ hc => simp [baseClash] at hc
    | null =>
      constructor
      · intro hp
        have hp' : p = [] := by simpa [diffV] using hp
        subst hp'
        exact Disagree.clash _ _ rfl
      · intro hd; cases hd; simp [diffV]
    | bool b =>
      constructor
      · intro hp
        have hp' : p = [] := by simpa [diffV] using hp
        subst hp'
        exact Disagree.clash _ _ rfl
      · intro hd; cases hd; simp [diffV]
    | num n =>
      constructor
      · intro hp
        have hp' : p = [] := by simpa [diffV] using hp
        subst hp'
        exact Disagree.clash _ _ rfl
      · intro hd; cases hd; simp [diffV]
    | str s =>
      constructor
      · intro hp
        have hp' : p = [] := by simpa [diffV] using hp
        subst hp'
        exact Disagree.clash _ _ rfl
      · intro hd; cases hd; simp [diffV]
    | seq ys =>
      constructor
      · intro hp
        have hp' : p = [] := by simpa [diffV] using hp
        subst hp'
        exact Disagree.clash _ _ rfl
      · intro hd; cases hd; simp [diffV]
  · intro x hx; cases hx
  · intro x xs ihx ihxs z hz
    rcases List.mem_cons.mp hz with rfl | hz
    · exact ihx
    · exact ihxs z hz
  · intro kv hkv; cases hkv
  · intro kv ex ihkv ihex kv' hkv'
    rcases List.mem_cons.mp hkv' with rfl | hkv'
    · exact ihkv
    · exact ihex kv' hkv'
  · intro k v ih; exact ih

/-! ## After a diff-free walk the source is fully rewritten in place -/

theorem postList_eq_normList :
    ∀ (xs : List Value),
      (∀ x ∈ xs, ∀ y, diffV (normGetAtt x) (normGetAtt y) = [] →
        postV x y = normGetAtt x) →
      ∀ ys, (normList xs).length = (normList ys).length →
        (∀ j a b, (normList xs).get? j = some a →
          (normList ys).get? j = some b → diffV a b = []) →
        postList xs ys = normList xs := by
  intro xs
  induction xs with
  | nil => intro _ ys _ _; simp only [postList, normList]
  | cons x xs ih =>
    intro H ys hlen hall
    cases ys with
    | nil => simp [normList] at hlen
    | cons y ys =>
      simp only [postList, normList]
      rw [H x (List.mem_cons_self _ _) y (hall 0 _ _ rfl rfl)]
      rw [ih (fun x hx => H x (List.mem_cons_of_mem _ hx)) ys
        (by simpa [normList] using hlen)
        (fun j a b ha hb => hall (j + 1) a b ha hb)]

theorem postEntries_eq_normEntries :
    ∀ (ex : List (String × Value)),
      (∀ kv ∈ ex, ∀ y, diffV (normGetAtt kv.2) (normGetAtt y) = [] →
        postV kv.2 y = normGetAtt kv.2) →
      ∀ ey, (∀ kv ∈ normEntries ex, ∃ vy,
          lookupE kv.1 (normEntries ey) = some vy ∧ diffV kv.2 vy = []) →
        postEntries ex (topTrans ey) = normEntries ex := by
  intro ex
  induction ex with
  | nil => intro _ ey _; simp only [postEntries, normEntries]
  | cons kv ex ih =>
    intro H ey hent
    obtain ⟨k, v⟩ := kv
    have Htail : ∀ kv ∈ ex, ∀ y,
        diffV (normGetAtt kv.2) (normGetAtt y) = [] →
          postV kv.2 y = normGetAtt kv.2 :=
      fun kv hkv => H kv (List.mem_cons_of_mem _ hkv)
    cases v with
    | str s =>
      simp only [postEntries, normEntries]
      rw [ih Htail ey
        (fun kv hkv => hent kv (List.mem_cons_of_mem _ hkv))]
    | null =>
      obtain ⟨nvy, hln, hdn⟩ := hent (k, normGetAtt .null)
        (List.mem_cons_self _ _)
      rw [lookupE_normEntries] at hln
      obtain ⟨w, hw, hnvy⟩ := Option.map_eq_some'.mp hln
      have hd2 : diffV (normGetAtt Value.null) (normGetAtt (tev k w)) = [] := by
        rw [norm_tev k w, hnvy]; exact hdn
      have hpost := H (k, Value.null) (List.mem_cons_self _ _) (tev k w) hd2
      simp only [postEntries, normEntries, lookupE_topTrans, hw,
        Option.map_some']
      rw [hpost,
        ih Htail ey (fun kv hkv => hent kv (List.mem_cons_of_mem _ hkv))]
    | bool b =>
      obtain ⟨nvy, hln, hdn⟩ := hent (k, normGetAtt (.bool b))
        (List.mem_cons_self _ _)
      rw [lookupE_normEntries] at hln
      obtain ⟨w, hw, hnvy⟩ := Option.map_eq_some'.mp hln
      have hd2 : diffV (normGetAtt (Value.bool b)) (normGetAtt (tev k w)) = [] := by
        rw [norm_tev k w, hnvy]; exact hdn
      have hpost := H (k, Value.bool b) (List.mem_cons_self _ _) (tev k w) hd2
      simp only [postEntries, normEntries, lookupE_topTrans, hw,
        Option.map_some']
      rw [hpost,
        ih Htail ey (fun kv hkv => hent kv (List.mem_cons_of_mem _ hkv))]
    | num n =>
      obtain ⟨nvy, hln, hdn⟩ := hent (k, normGetAtt (.num n))
        (List.mem_cons_self _ _)
      rw [lookupE_normEntries] at hln
      obtain ⟨w, hw, hnvy⟩ := Option.map_eq_some'.mp hln
      have hd2 : diffV (normGetAtt (Value.num n)) (normGetAtt (tev k w)) = [] := by
        rw [norm_tev k w, hnvy]; exact hdn
      have hpost := H (k, Value.num n) (List.mem_cons_self _ _) (tev k w) hd2
      simp only [postEntries, normEntries, lookupE_topTrans, hw,
        Option.map_some']
      rw [hpost,
        ih Htail ey (fun kv hkv => hent kv (List.mem_cons_of_mem _ hkv))]
    | seq xs =>
      obtain ⟨nvy, hln, hdn⟩ := hent (k, normGetAtt (.seq xs))
        (List.mem_cons_self _ _)
      rw [lookupE_normEntries] at hln
      obtain ⟨w, hw, hnvy⟩ := Option.map_eq_some'.mp hln
      have hd2 : diffV (normGetAtt (Value.seq xs)) (normGetAtt (tev k w)) = [] := by
        rw [norm_tev k w, hnvy]; exact hdn
      have hpost := H (k, Value.seq xs) (List.mem_cons_self _ _) (tev k w) hd2
      simp only [postEntries, normEntries, lookupE_topTrans, hw,
        Option.map_some']
      rw [hpost,
        ih Htail ey (fun kv hkv => hent kv (List.mem_cons_of_mem _ hkv))]
    | map mx =>
      obtain ⟨nvy, hln, hdn⟩ := hent (k, normGetAtt (.map mx))
        (List.mem_cons_self _ _)
      rw [lookupE_normEntries] at hln
      obtain ⟨w, hw, hnvy⟩ := Option.map_eq_some'.mp hln
      have hd2 : diffV (normGetAtt (Value.map mx)) (normGetAtt (tev k w)) = [] := by
        rw [norm_tev k w, hnvy]; exact hdn
      have hpost := H (k, Value.map mx) (List.mem_cons_self _ _) (tev k w) hd2
      simp only [postEntries, normEntries, lookupE_topTrans, hw,
        Option.map_some']
      rw [hpost,
        ih Htail ey (fun kv hkv => hent kv (List.mem_cons_of_mem _ hkv))]

/-- When the comparison finds no difference, the walk has visited every
node of the source and left it exactly in its recursively rewritten form:
the caller's document afterwards is `normGetAtt` of what it was. -/
theorem post_eq_norm : ∀ x y,
    diffV (normGetAtt x) (normGetAtt y) = [] → postV x y = normGetAtt x := by
  apply Value.rec
    (motive_1 := fun x => ∀ y,
      diffV (normGetAtt x) (normGetAtt y) = [] → postV x y = normGetAtt x)
    (motive_2 := fun xs => ∀ x ∈ xs, ∀ y,
      diffV (normGetAtt x) (normGetAtt y) = [] → postV x y = normGetAtt x)
    (motive_3 := fun ex => ∀ kv ∈ ex, ∀ y,
      diffV (normGetAtt kv.2) (normGetAtt y) = [] →
        postV kv.2 y = normGetAtt kv.2)
    (motive_4 := fun kv => ∀ y,
      diffV (normGetAtt kv.2) (normGetAtt y) = [] →
        postV kv.2 y = normGetAtt kv.2)
  · intro y _; rfl
  · intro b y _; rfl
  · intro n y _; rfl
  · intro s y _; rfl
  · intro xs ih y h
    cases y with
    | seq ys =>
      rw [show diffV (normGetAtt (.seq xs)) (normGetAtt (.seq ys)) =
        diffSeq 0 (normList xs) (normList ys) from rfl,
        diffSeq_nil_iff] at h
      show Value.seq (postList xs ys) = Value.seq (normList xs)
      rw [postList_eq_normList xs ih ys h.1 h.2]
    | null => cases h
    | bool b => cases h
    | num n => cases h
    | str s => cases h
    | map ey => cases h
  · intro ex ih y h
    cases y with
    | map ey =>
      rw [show diffV (normGetAtt (.map ex)) (normGetAtt (.map ey)) =
        diffEntries (normEntries ex) (normEntries ey) ++
          ((keysE (normEntries ey)).filter
            (fun k => (lookupE k (normEntries ex)).isNone)).map
            (fun k => [Step.key k]) from rfl,
        List.append_eq_nil, diffEntries_nil_iff] at h
      show Value.map (postEntries ex (topTrans ey)) =
        Value.map (normEntries ex)
      rw [postEntries_eq_normEntries ex ih ey h.1]
    | null => cases h
    | bool b => cases h
    | num n => cases h
    | str s => cases h
    | seq ys => cases h
  · intro x hx; cases hx
  · intro x xs ihx ihxs z hz
    rcases List.mem_cons.mp hz with rfl | hz
    · exact ihx
    · exact ihxs z hz
  · intro kv hkv; cases hkv
  · intro kv ex ihkv ihex kv' hkv'
    rcases List.mem_cons.mp hkv' with rfl | hkv'
    · exact ihkv
    · exact ihex kv' hkv'
  · intro k v ih; exact ih

/-! ## The claims -/

/-- C3: the attribute-path canonicalizer is a pure function that splits a
string on the first `"."` occurrence only, returning a two-element ordered
sequence (a `"."` inside the attribute-name part is preserved in the
second element, e.g. `"MyResource.Outputs.Value"` becomes
`["MyResource", "Outputs.Value"]`), and returns every non-string input
unchanged. -/
theorem transformGetAtt_spec :
    (∀ a b : String, '.' ∉ a.data →
      transformGetAtt (.str (a ++ "." ++ b)) = .seq [.str a, .str b]) ∧
    (∀ s : String, ∃ e₁ e₂, transformGetAtt (.str s) = .seq [e₁, e₂]) ∧
    (∀ v : Value, (∀ s, v ≠ .str s) → transformGetAtt v = v) ∧
    transformGetAtt (.str "MyResource.Outputs.Value") =
      .seq [.str "MyResource", .str "Outputs.Value"] := by
  refine ⟨?_, ?_, ?_, by decide⟩
  · intro a b ha
    have hd : (a ++ "." ++ b).data = a.data ++ '.' :: b.data := by
      rw [String.data_append, String.data_append, List.append_assoc]
      rfl
    simp only [transformGetAtt, goSplitNDot2, hd,
      splitCharsAtFirst_append ha]
    rfl
  · intro s
    rcases transformGetAtt_str_cases s with h | ⟨a, b, h⟩
    · exact ⟨_, _, h⟩
    · exact ⟨_, _, h⟩
  · exact fun v h => transformGetAtt_not_str h

/-- Witness for C3 at concrete inputs. -/
theorem transformGetAtt_spec_witness :
    transformGetAtt (.str ("MyResource" ++ "." ++ "Outputs.Value")) =
      .seq [.str "MyResource", .str "Outputs.Value"] ∧
    transformGetAtt (.seq [.str "A", .str "B"]) = .seq [.str "A", .str "B"] :=
  ⟨transformGetAtt_spec.1 "MyResource" "Outputs.Value" (by decide),
   transformGetAtt_spec.2.2.1 _ (fun s h => by cases h)⟩

/-- C9: on a string with no `"."`, the canonicalizer returns a length-2
sequence whose first element is the whole string and whose second element
is the nil value, not the empty string. -/
theorem transformGetAtt_no_dot_spec :
    (∀ s : String, '.' ∉ s.data →
      transformGetAtt (.str s) = .seq [.str s, Value.null]) ∧
    Value.null ≠ Value.str "" := by
  constructor
  · intro s hs
    simp only [transformGetAtt, goSplitNDot2,
      splitCharsAtFirst_of_not_mem hs]
    rfl
  · intro h; cases h

/-- Witness for C9 at a concrete input. -/
theorem transformGetAtt_no_dot_spec_witness :
    transformGetAtt (.str "MyResource") = .seq [.str "MyResource", Value.null] :=
  transformGetAtt_no_dot_spec.1 "MyResource" (by decide)

/-- C2: for every registered tag name and payload, the tag normalizer
returns a mapping with exactly one key and one value; the key is `"Fn::"`
plus the tag name unless the tag is exactly `"Ref"` or exactly
`"Condition"` (then the bare name), and the value is the raw payload
unchanged except in the `GetAtt` case, where it is canonicalized. -/
theorem unmarshalYAMLTag_spec :
    ∀ tag value, tag ∈ tags →
      UnmarshalYAMLTag tag value =
        .map [((if tag = "Ref" ∨ tag = "Condition" then tag
                 else "Fn::" ++ tag),
               (if tag = "GetAtt" then transformGetAtt value else value))] := by
  intro tag value htag
  fin_cases htag <;> rfl

/-- Witness for C2 at the `GetAtt` tag and a reference tag. -/
theorem unmarshalYAMLTag_spec_witness :
    UnmarshalYAMLTag "GetAtt" (.str "A.B") =
      .map [("Fn::GetAtt", transformGetAtt (.str "A.B"))] ∧
    UnmarshalYAMLTag "Ref" (.str "X") = .map [("Ref", .str "X")] :=
  ⟨unmarshalYAMLTag_spec "GetAtt" (.str "A.B") (by decide),
   unmarshalYAMLTag_spec "Ref" (.str "X") (by decide)⟩

/-- C8: both `Read` and `ReadFile` funnel into `ReadString`: whenever the
bytes are acquired successfully, they return exactly the result of
`ReadString` on the full acquired contents. -/
theorem read_funnel_spec :
    (∀ conv data, Read conv (.ok data) = ReadString conv data) ∧
    (∀ conv fs name contents, fs name = .ok contents →
      ReadFile conv fs name = ReadString conv contents) := by
  constructor
  · intro conv data; rfl
  · intro conv fs name contents h
    unfold ReadFile
    rw [h]

/-- Witness for C8 at concrete inputs. -/
theorem read_funnel_spec_witness :
    Read (fun _ => .ok Value.null) (.ok "x") =
      ReadString (fun _ => .ok Value.null) "x" ∧
    ReadFile (fun _ => .ok Value.null) (osFS [("f", "x")]) "f" =
      ReadString (fun _ => .ok Value.null) "x" :=
  ⟨read_funnel_spec.1 _ "x", read_funnel_spec.2 _ (osFS [("f", "x")]) "f" "x" rfl⟩

/-- C10: an input that the converter decodes to JSON `null` (for example
the empty string) makes `ReadString` return a nil document and no error;
consequently `Read` on an empty stream and `ReadFile` on an empty file
also succeed with a nil document. -/
theorem readString_null_input_spec :
    (∀ conv input, conv input = .ok Value.null →
      ReadString conv input = .ok none) ∧
    (∀ conv, conv "" = .ok Value.null →
      ReadString conv "" = .ok none ∧ Read conv (.ok "") = .ok none) ∧
    (∀ conv files name, files.lookup name = some "" →
      conv "" = .ok Value.null →
      ReadFile conv (osFS files) name = .ok none) := by
  refine ⟨?_, ?_, ?_⟩
  · intro conv input h
    unfold ReadString
    rw [h]
    rfl
  · intro conv h
    constructor
    · unfold ReadString; rw [h]; rfl
    · show ReadString conv "" = .ok none
      unfold ReadString; rw [h]; rfl
  · intro conv files name hf h
    unfold ReadFile osFS
    rw [hf]
    show ReadString conv "" = .ok none
    unfold ReadString; rw [h]; rfl

/-- Witness for C10 with a converter that decodes the empty string to
`null`. -/
theorem readString_null_input_spec_witness :
    ReadString (fun _ => .ok Value.null) "" = .ok none ∧
    Read (fun _ => .ok Value.null) (.ok "") = .ok none ∧
    ReadFile (fun _ => .ok Value.null) (osFS [("empty", "")]) "empty" =
      .ok none :=
  ⟨(readString_null_input_spec.2.1 _ rfl).1,
   (readString_null_input_spec.2.1 _ rfl).2,
   readString_null_input_spec.2.2 _ [("empty", "")] "empty" rfl rfl⟩

/-- C6: the read entry points surface exactly two error kinds, each
wrapping the underlying cause behind a short descriptive prefix: an
input-acquisition error (`"Unable to read input: "` for streams,
`"Unable to read file: "` for files, naming the path for a nonexistent
one) and a markup-invalid error prefixed `"Invalid YAML: "` (the fate of
`"foo: ["` when the converter rejects it); being total functions they
return these errors, never a panic or a partial map. -/
theorem read_error_taxonomy_spec :
    (∀ conv input e, ReadString conv input = .error e →
      ∃ c, e = "Invalid YAML: " ++ c) ∧
    (∀ conv r e, Read conv r = .error e →
      (∃ c, e = "Unable to read input: " ++ c) ∨
        (∃ c, e = "Invalid YAML: " ++ c)) ∧
    (∀ conv fs name e, ReadFile conv fs name = .error e →
      (∃ c, e = "Unable to read file: " ++ c) ∨
        (∃ c, e = "Invalid YAML: " ++ c)) ∧
    (∀ conv files name, files.lookup name = none →
      ReadFile conv (osFS files) name =
        .error ("Unable to read file: " ++
          ("open " ++ name ++ ": no such file or directory"))) ∧
    (∀ conv c, conv "foo: [" = .error c →
      ReadString conv "foo: [" = .error ("Invalid YAML: " ++ c)) := by
  have hrs : ∀ conv input e, ReadString conv input = .error e →
      ∃ c, e = "Invalid YAML: " ++ c := by
    intro conv input e h
    unfold ReadString at h
    cases hc : conv input with
    | error e' =>
      rw [hc] at h
      injection h with h'
      exact ⟨e', h'.symm⟩
    | ok parsed =>
      rw [hc] at h
      cases parsed with
      | null => cases h
      | map m => cases h
      | bool b => injection h with h'; exact ⟨_, h'.symm⟩
      | num n => injection h with h'; exact ⟨_, h'.symm⟩
      | str s => injection h with h'; exact ⟨_, h'.symm⟩
      | seq xs => injection h with h'; exact ⟨_, h'.symm⟩
  refine ⟨hrs, ?_, ?_, ?_, ?_⟩
  · intro conv r e h
    cases r with
    | error e' =>
      injection h with h'
      exact Or.inl ⟨e', h'.symm⟩
    | ok data => exact Or.inr (hrs conv data e h)
  · intro conv fs name e h
    unfold ReadFile at h
    cases hf : fs name with
    | error e' =>
      rw [hf] at h
      injection h with h'
      exact Or.inl ⟨e', h'.symm⟩
    | ok contents =>
      rw [hf] at h
      exact Or.inr (hrs conv contents e h)
  · intro conv files name hn
    unfold ReadFile osFS
    rw [hn]
  · intro conv c h
    unfold ReadString
    rw [h]

/-- Witness for C6: both error kinds arise at concrete inputs, with their
prefixes. -/
theorem read_error_taxonomy_spec_witness :
    (∃ c, ("Invalid YAML: boom" : String) = "Invalid YAML: " ++ c) ∧
    ReadFile (fun _ => .ok Value.null) (osFS []) "missing.yaml" =
      .error ("Unable to read file: " ++
        ("open " ++ "missing.yaml" ++ ": no such file or directory")) ∧
    ReadString (fun _ => .error "did not find expected node content")
        "foo: [" =
      .error ("Invalid YAML: " ++ "did not find expected node content") :=
  ⟨read_error_taxonomy_spec.1 (fun _ => .error "boom") "x"
      "Invalid YAML: boom" rfl,
   read_error_taxonomy_spec.2.2.2.1 (fun _ => .ok Value.null) [] "missing.yaml" rfl,
   read_error_taxonomy_spec.2.2.2.2 _ "did not find expected node content" rfl⟩

/-- C5: when the candidate string fails to parse, `VerifyOutput` fails
with exactly the parse error, performs no comparison, and the reference
document is left untouched (no canonicalization happened). -/
theorem verifyOutput_parse_error_spec :
    ∀ conv (source : Doc) (output : String) e,
      ReadString conv output = .error e →
      VerifyOutputPost conv source output = (.error e, .map source) := by
  intro conv source output e h
  unfold VerifyOutputPost VerifyOutput
  rw [h]

/-- Witness for C5 at a failing converter. -/
theorem verifyOutput_parse_error_spec_witness :
    VerifyOutputPost (fun _ => .error "bad") [("a", Value.num 1)] "x" =
      (.error ("Invalid YAML: " ++ "bad"), .map [("a", Value.num 1)]) :=
  verifyOutput_parse_error_spec _ [("a", Value.num 1)] "x"
    ("Invalid YAML: " ++ "bad") rfl

/-- C1: when the candidate parses to a document that differs from the
reference only in attribute-getter spelling — i.e. both canonicalize to
the same document once the GetAtt rewrite has been applied recursively,
at any nesting depth — `VerifyOutput` succeeds with no diff.  (Both sides
of the comparison in `VerifyOutput` are the recursively rewritten
documents; well-formedness of the reference reflects Go map key
uniqueness.) -/
theorem verifyOutput_getatt_spelling_spec :
    ∀ conv (source v : Doc) (output : String),
      wfV (.map source) = true →
      ReadString conv output = .ok (some v) →
      normGetAtt (.map source) = normGetAtt (.map v) →
      VerifyOutput conv source output = .ok () := by
  intro conv source v output hwf hread heq
  unfold VerifyOutput
  rw [hread]
  have hdiff : diffV (normGetAtt (.map source)) (normGetAtt (.map v)) = [] := by
    rw [← heq]
    exact diff_self _ (wf_norm _ hwf)
  simp only [hdiff, renderDiff]
  rfl

/-- Witness for C1: the GetAtt spelling difference sits inside a sequence
inside two nested mappings, and the two documents also use the dotted and
the no-dot string forms. -/
theorem verifyOutput_getatt_spelling_spec_witness :
    VerifyOutput
      (fun s => if s = "out"
        then .ok (.map [("Resources", .map [("R", .map
          [("Props", .seq [.map [("Fn::GetAtt", .seq [.str "X", .str "Y.Z"])],
            .map [("Fn::GetAtt", .seq [.str "W", Value.null])],
            .num 1])])])])
        else .error "unreachable")
      [("Resources", .map [("R", .map
        [("Props", .seq [.map [("Fn::GetAtt", .str "X.Y.Z")],
          .map [("Fn::GetAtt", .str "W")],
          .num 1])])])]
      "out" = .ok () :=
  verifyOutput_getatt_spelling_spec _ _
    [("Resources", .map [("R", .map
      [("Props", .seq [.map [("Fn::GetAtt", .seq [.str "X", .str "Y.Z"])],
        .map [("Fn::GetAtt", .seq [.str "W", Value.null])],
        .num 1])])])]
    "out" (by decide) (by rfl) (by decide)

/-- C4: when the two documents differ in anything other than GetAtt
spelling — their recursively rewritten forms are not deep-structurally
equal — `VerifyOutput` fails with the semantic-difference error carrying
the rendered structural diff, that diff is non-empty, and its path list
names exactly the points at which the two rewritten documents
disagree. -/
theorem verifyOutput_difference_spec :
    ∀ conv (source v : Doc) (output : String),
      ReadString conv output = .ok (some v) →
      ¬ Veq (normGetAtt (.map source)) (normGetAtt (.map v)) →
      (VerifyOutput conv source output =
        .error ("Semantic difference after formatting:\n" ++
          renderDiff (diffV (normGetAtt (.map source))
            (normGetAtt (.map v)))) ∧
       diffV (normGetAtt (.map source)) (normGetAtt (.map v)) ≠ [] ∧
       renderDiff (diffV (normGetAtt (.map source))
         (normGetAtt (.map v))) ≠ "" ∧
       (∀ p, p ∈ diffV (normGetAtt (.map source)) (normGetAtt (.map v)) ↔
         Disagree (normGetAtt (.map source)) (normGetAtt (.map v)) p)) := by
  intro conv source v output hread hneq
  have hne : diffV (normGetAtt (.map source)) (normGetAtt (.map v)) ≠ [] :=
    fun h => hneq (diff_nil_veq _ _ h)
  have hrne : renderDiff (diffV (normGetAtt (.map source))
      (normGetAtt (.map v))) ≠ "" :=
    fun h => hne ((renderDiff_eq_empty_iff _).mp h)
  refine ⟨?_, hne, hrne, fun p => mem_diff_iff _ _ p⟩
  unfold VerifyOutput
  rw [hread]
  simp only [if_neg hrne]

/-- Witness for C4: a one-key difference in a nested value. -/
theorem verifyOutput_difference_spec_witness :
    VerifyOutput (fun _ => .ok (.map [("a", Value.num 2)]))
        [("a", Value.num 1)] "out" =
      .error ("Semantic difference after formatting:\n" ++
        renderDiff (diffV (normGetAtt (.map [("a", Value.num 1)]))
          (normGetAtt (.map [("a", Value.num 2)])))) ∧
    diffV (normGetAtt (.map [("a", Value.num 1)]))
      (normGetAtt (.map [("a", Value.num 2)])) ≠ [] :=
  ⟨(verifyOutput_difference_spec (fun _ => .ok (.map [("a", Value.num 2)]))
      [("a", Value.num 1)] [("a", Value.num 2)] "out" rfl
      (fun hv => by
        cases hv with
        | map _ _ h1 h2 =>
          exact absurd (h2 "a" (Value.num 1) (Value.num 2) rfl rfl)
            (fun hq => by cases hq))).1,
   (verifyOutput_difference_spec (fun _ => .ok (.map [("a", Value.num 2)]))
      [("a", Value.num 1)] [("a", Value.num 2)] "out" rfl
      (fun hv => by
        cases hv with
        | map _ _ h1 h2 =>
          exact absurd (h2 "a" (Value.num 1) (Value.num 2) rfl rfl)
            (fun hq => by cases hq))).2.1⟩

/-- Fixture for C7: a converter whose only successful input parses to the
list-form GetAtt document. -/
def cexConv : String → Except String Value := fun s =>
  if s = "out"
  then .ok (.map [("Fn::GetAtt", .seq [.str "A", .str "B"])])
  else .error "unreachable"

/-- Fixture for C7: a caller-supplied source document with a string-form
GetAtt payload. -/
def cexSource : Doc := [("Fn::GetAtt", .str "A.B")]

/-- Counterexample to C7 as stated: the claim says that after every call
the caller-supplied source document is unchanged, but here a successful
`VerifyOutput` call leaves the source with its GetAtt string rewritten to
list form — the transformer wrote into the caller's map, not a copy. -/
theorem verifyOutput_mutates_source_counterexample :
    (VerifyOutputPost cexConv cexSource "out").1 = .ok () ∧
    (VerifyOutputPost cexConv cexSource "out").2 ≠ .map cexSource := by
  constructor
  · rfl
  · decide

/-- C7 (amended): the in-place GetAtt canonicalization of `VerifyOutput`
is performed on the caller's actual documents, not on copies: whenever
the comparison proceeds and succeeds, the caller-supplied source document
afterwards is its recursively GetAtt-rewritten form — observably changed
whenever the rewrite is not the identity on it. -/
theorem verifyOutput_inplace_canonicalization_spec :
    ∀ conv (source v : Doc) (output : String),
      ReadString conv output = .ok (some v) →
      VerifyOutput conv source output = .ok () →
      VerifyOutputPost conv source output =
        (.ok (), normGetAtt (.map source)) := by
  intro conv source v output hread hok
  have hd : diffV (normGetAtt (.map source)) (normGetAtt (.map v)) = [] := by
    by_contra hne
    have hrne : renderDiff (diffV (normGetAtt (.map source))
        (normGetAtt (.map v))) ≠ "" :=
      fun h => hne ((renderDiff_eq_empty_iff _).mp h)
    unfold VerifyOutput at hok
    rw [hread] at hok
    simp only [if_neg hrne] at hok
    cases hok
  unfold VerifyOutputPost
  rw [hok, hread]
  show ((Except.ok () : Except String Unit),
      postV (Value.map source) (Value.map v)) =
    ((Except.ok () : Except String Unit), normGetAtt (Value.map source))
  rw [post_eq_norm (.map source) (.map v) hd]

/-- Witness for C7 (amended) on the fixture documents: the source ends up
fully canonicalized. -/
theorem verifyOutput_inplace_canonicalization_spec_witness :
    VerifyOutputPost cexConv cexSource "out" =
      (.ok (), normGetAtt (.map cexSource)) :=
  verifyOutput_inplace_canonicalization_spec cexConv cexSource
    [("Fn::GetAtt", .seq [.str "A", .str "B"])] "out" (by rfl) (by rfl)

end Parse
